import Mathlib

/-!
Shallow embedding of the terminology server's expansion / validation core
(`terminology/views/expand/expand.py` and
`POC-1-standard/terminology/views/validate_code.py`) together with theorems
about the embedded definitions.

Concept identifiers, SNOMED type identifiers and terms are all strings, as in
the source (Elasticsearch document fields).  Sets of concept ids are `Finset
String`.  The Elasticsearch relevance score (a float in the source) is
modelled as an integer; only its ordered additive structure matters to the
ranking logic.
-/

namespace TermServer

/-- SNOMED CT system URI used throughout the source. -/
def snomedSystem : String := "http://snomed.info/sct"

/-- LOINC system URI; an include clause naming it makes `expand_view` return a
LOINC expansion instead of the SNOMED set computation. -/
def loincSystem : String := "http://loinc.org"

/-- The IS-A relationship type id (`116680003`). -/
def isaTypeId : String := "116680003"

/-- Description type id of a Synonym. -/
def synonymTypeId : String := "900000000000013009"

/-- Description type id of a Fully Specified Name. -/
def fsnTypeId : String := "900000000000003001"

/-- Acceptability id meaning Preferred. -/
def preferredId : String := "900000000000548007"

/-- US English language refset id. -/
def usRefsetId : String := "900000000000509007"

/-- GB English language refset id. -/
def gbRefsetId : String := "900000000000508004"

/-! ## Relationship graph (the `relationships` index) -/

/-- One row of the `relationships` index. -/
structure Rel where
  source_id : String
  destination_id : String
  type_id : String
  active : Bool
deriving DecidableEq, Repr

/-- The graph store: the list of relationship rows. -/
abbrev Graph := List Rel

/-- Sources of all active IS-A edges whose destination lies in `cur`
(embeds `get_children_composite`). -/
def childrenOf (g : Graph) (cur : Finset String) : Finset String :=
  ((g.filter (fun r => r.active && (r.type_id == isaTypeId) &&
      decide (r.destination_id ∈ cur))).map (fun r => r.source_id)).toFinset

/-- Destinations of all active IS-A edges whose source lies in `cur`
(embeds `get_concept_parents`). -/
def parentsOf (g : Graph) (cur : Finset String) : Finset String :=
  ((g.filter (fun r => r.active && (r.type_id == isaTypeId) &&
      decide (r.source_id ∈ cur))).map (fun r => r.destination_id)).toFinset

/-- The breadth-first loop of `find_descendants`: `acc` is the accumulated
descendant set, `cur` the current frontier, and the `Nat` argument the
remaining depth budget (`max_depth - depth`). -/
def descLoop (g : Graph) (root : String) : Nat → Finset String → Finset String → Finset String
  | 0, acc, _ => acc
  | fuel + 1, acc, cur =>
    let nxt := (childrenOf g cur \ acc) \ {root}
    if nxt = ∅ then acc else descLoop g root fuel (acc ∪ nxt) nxt

/-- `find_descendants` from `expand.py`: breadth-first descendant closure of
`root` with the hard-coded depth bound `max_depth = 10`; the root is removed
from every frontier. -/
def find_descendants (g : Graph) (root : String) : Finset String :=
  descLoop g root 10 ∅ {root}

/-- The breadth-first loop of `get_concept_ancestors` (upward traversal). -/
def ancLoop (g : Graph) (start : String) : Nat → Finset String → Finset String → Finset String
  | 0, acc, _ => acc
  | fuel + 1, acc, cur =>
    let nxt := (parentsOf g cur \ acc) \ {start}
    if nxt = ∅ then acc else ancLoop g start fuel (acc ∪ nxt) nxt

/-- `get_concept_ancestors` from `validate_code.py`: upward IS-A closure with
the hard-coded depth bound `max_depth = 15`. -/
def get_concept_ancestors (g : Graph) (start : String) : Finset String :=
  ancLoop g start 15 ∅ {start}

/-! ## Concepts index -/

/-- One row of the `concepts` index. -/
structure ConceptRow where
  id : String
  active : Bool
deriving DecidableEq, Repr

/-- The concepts index. -/
abbrev ConceptIndex := List ConceptRow

/-- The `concept_exists` of `expand.py`: the document is merely looked up, the
`active` flag is NOT examined. -/
def concept_exists_expand (idx : ConceptIndex) (cid : String) : Bool :=
  idx.any (fun c => c.id == cid)

/-- The `concept_exists` of `validate_code.py`: the document must be found AND
carry `active = true`. -/
def concept_exists_validate (idx : ConceptIndex) (cid : String) : Bool :=
  match idx.find? (fun c => c.id == cid) with
  | some c => c.active
  | none => false

/-! ## ValueSet compose specification -/

/-- One `filter` entry of a compose clause. -/
structure VSFilter where
  property : Option String
  op : Option String
  value : String
deriving DecidableEq, Repr

/-- One include / exclude clause.  `concept = some codes` models the presence
of a `concept` key (the codes of its entries); `filters = some fs` models the
presence of a `filter` key. -/
structure ComposeClause where
  system : Option String
  concept : Option (List String)
  filters : Option (List VSFilter)
deriving DecidableEq, Repr

/-- Contribution of one filter entry inside a SNOMED clause of `expand_view`:
only `property = concept, op = is-a` filters act; the root is looked up with
`concept_exists` (existence only) and, when found, the clause contributes
the root together with its descendants; otherwise nothing (a warning is
logged and the loop continues). -/
def filterContrib (idx : ConceptIndex) (g : Graph) (f : VSFilter) : Finset String :=
  if f.property = some "concept" ∧ f.op = some "is-a" then
    if concept_exists_expand idx f.value then
      insert f.value (find_descendants g f.value)
    else ∅
  else ∅

/-- Concept-id set contributed by one SNOMED clause in `expand_view`
(explicit `concept` codes plus all filter contributions). -/
def clauseConceptSet (idx : ConceptIndex) (g : Graph) (c : ComposeClause) : Finset String :=
  (c.concept.getD []).toFinset ∪
    (c.filters.getD []).foldr (fun f acc => acc ∪ filterContrib idx g f) ∅

/-- The include loop of `expand_view`.  A clause whose system is SNOMED adds
its concept set; a clause naming LOINC makes the whole function return a
LOINC expansion (modelled as `Except.error ()`); any other system is
skipped. -/
def inclLoop (idx : ConceptIndex) (g : Graph) :
    List ComposeClause → Finset String → Except Unit (Finset String)
  | [], acc => .ok acc
  | c :: rest, acc =>
    if c.system = some snomedSystem then
      inclLoop idx g rest (acc ∪ clauseConceptSet idx g c)
    else if c.system = some loincSystem then
      .error ()
    else
      inclLoop idx g rest acc

/-- The exclude loop of `expand_view` (non-SNOMED clauses are skipped; there
is no LOINC early return here). -/
def exclLoop (idx : ConceptIndex) (g : Graph) :
    List ComposeClause → Finset String → Finset String
  | [], acc => acc
  | c :: rest, acc =>
    if c.system = some snomedSystem then
      exclLoop idx g rest (acc ∪ clauseConceptSet idx g c)
    else
      exclLoop idx g rest acc

/-- Concept-id set computed by `expand_view` for a compose specification:
the include union minus the exclude union, unless some include clause routed
the request to the LOINC engine. -/
def expandResult (idx : ConceptIndex) (g : Graph)
    (includes excludes : List ComposeClause) : Except Unit (Finset String) :=
  (inclLoop idx g includes ∅).map (fun s => s \ exclLoop idx g excludes ∅)

/-- Union, clause by clause, of the include contributions (the set-algebra
view of the include loop). -/
def unionClauses (idx : ConceptIndex) (g : Graph) : List ComposeClause → Finset String
  | [] => ∅
  | c :: rest =>
    (if c.system = some snomedSystem then clauseConceptSet idx g c else ∅) ∪
      unionClauses idx g rest

/-- Total-function form of the expansion set (include union minus exclude
union), used to state the set-algebra properties. -/
def resultSet (idx : ConceptIndex) (g : Graph)
    (includes excludes : List ComposeClause) : Finset String :=
  unionClauses idx g includes \ unionClauses idx g excludes

/-! ## Fallible descendant traversal (`find_descendants` under query failure)

`get_children_composite` can raise (Elasticsearch failure).  The `try` block
of `find_descendants` wraps the whole while-loop and the `except` branch
returns the `all_descendants` set accumulated so far.  The children query is
modelled as an oracle that either yields the next level or fails. -/

/-- A children-query oracle: for a frontier, either the set of child ids or a
query failure. -/
abbrev ChildOracle := Finset String → Except Unit (Finset String)

/-- Loop of `find_descendants` over a fallible children query.  `Except.error
acc` records that a query raised with `acc` accumulated so far. -/
def descLoopF (q : ChildOracle) (root : String) :
    Nat → Finset String → Finset String → Except (Finset String) (Finset String)
  | 0, acc, _ => .ok acc
  | fuel + 1, acc, cur =>
    match q cur with
    | .error _ => .error acc
    | .ok next =>
      let nxt := (next \ acc) \ {root}
      if nxt = ∅ then .ok acc else descLoopF q root fuel (acc ∪ nxt) nxt

/-- `find_descendants` with the `except` branch: on a query failure the
accumulated (partial) set is returned as the normal result — no error reaches
the caller. -/
def find_descendants_fallible (q : ChildOracle) (root : String) : Finset String :=
  match descLoopF q root 10 ∅ {root} with
  | .ok s => s
  | .error s => s

/-- The failure-free oracle induced by a relationship graph. -/
def graphOracle (g : Graph) : ChildOracle := fun cur => .ok (childrenOf g cur)

/-! ## Validate-code engine (`validate_code.py`) -/

/-- `check_code_against_filter`: for `property=concept`, `op` one of
`is-a` (self or ancestor containment), `=` (equality), `in` (comma-separated
membership); anything else is no match. -/
def check_code_against_filter (g : Graph)
    (code : String) (f : VSFilter) : Bool :=
  if f.property = some "concept" ∧ f.op = some "is-a" then
    code == f.value || decide (f.value ∈ get_concept_ancestors g code)
  else if f.property = some "concept" ∧ f.op = some "=" then
    code == f.value
  else if f.property = some "concept" ∧ f.op = some "in" then
    (f.value.splitOn ",").contains code
  else
    false

/-- Whether `validate_code_against_valueset` skips a clause: the `system`
field is present, non-empty and different from SNOMED.  (A missing or empty
system is treated as SNOMED there, unlike in `expand_view`.) -/
def clauseSkippedByValidate (c : ComposeClause) : Bool :=
  match c.system with
  | none => false
  | some s => !(s == "") && !(s == snomedSystem)

/-- One clause's vote in the include/exclude loops of
`validate_code_against_valueset`: explicit concept match, filter match, or
the catch-all (a clause with neither a `concept` nor a `filter` key counts
every code as included). -/
def clauseMatchesValidate (g : Graph)
    (code : String) (c : ComposeClause) : Bool :=
  !clauseSkippedByValidate c &&
    ((c.concept.getD []).any (fun e => e == code) ||
     (c.filters.getD []).any (check_code_against_filter g code) ||
     (c.concept.isNone && c.filters.isNone))

/-- The boolean `result` computed by `validate_code_against_valueset`: the
code must exist as an active concept, be included by some include clause and
not excluded by any exclude clause.  (For exclude clauses the catch-all
branch does not exist in the source, so clauses with neither key are passed
with `concept`/`filter` keys in this model.) -/
def validate_code_against_valueset (idx : ConceptIndex) (g : Graph)
    (code : String) (includes excludes : List ComposeClause) : Bool :=
  if concept_exists_validate idx code then
    includes.any (clauseMatchesValidate g code) &&
      !(excludes.any (fun c =>
        !clauseSkippedByValidate c &&
          ((c.concept.getD []).any (fun e => e == code) ||
           (c.filters.getD []).any (check_code_against_filter g code))))
  else
    false

/-! ## Term resolver (`get_concept_display` and friends) -/

/-- One row of the `descriptions` index, with its document id. -/
structure Desc where
  descId : String
  concept_id : String
  language_code : String
  type_id : String
  term : String
  active : Bool
deriving DecidableEq, Repr

/-- One row of the `language_refsets` index. -/
structure RefsetMember where
  referenced_component_id : String
  refset_id : String
  acceptability_id : String
  active : Bool
deriving DecidableEq, Repr

/-- The description / language-refset store. -/
structure Store where
  descs : List Desc
  members : List RefsetMember
deriving DecidableEq, Repr

/-- The language-to-refset map (`refset_map.get(display_language, US)`). -/
def refsetFor (lang : String) : String :=
  if lang == "en" || lang == "en-us" then usRefsetId
  else if lang == "en-gb" then gbRefsetId
  else usRefsetId

/-- Request-level language normalization performed by the views: `en-gb` and
`en-us` collapse to `en`; every other language code passes through. -/
def normalizeLang (lang : String) : String :=
  if lang == "en-gb" || lang == "en-us" then "en" else lang

/-- Active synonym descriptions of a concept in a language, in store order. -/
def activeSynonyms (st : Store) (cid lang : String) : List Desc :=
  st.descs.filter (fun d =>
    d.concept_id == cid && d.active && d.language_code == lang &&
      d.type_id == synonymTypeId)

/-- `get_preferred_term`: among the concept's active synonyms in `lang`, the
one marked Preferred in the dialect's refset, else the first synonym; `none`
when the concept has no active synonym in `lang`.  Only the requested
language is ever consulted. -/
def get_preferred_term (st : Store) (cid lang : String) : Option String :=
  match activeSynonyms st cid lang with
  | [] => none
  | first :: rest =>
    let syns := first :: rest
    let ids := syns.map (fun d => d.descId)
    match st.members.find? (fun m =>
        ids.contains m.referenced_component_id &&
          m.refset_id == refsetFor lang && m.active &&
          m.acceptability_id == preferredId) with
    | some m =>
      (syns.find? (fun d => d.descId == m.referenced_component_id)).map
        (fun d => d.term)
    | none => some first.term

/-- `get_concept_display`: preferred term, else first active synonym, else
first active FSN, else `none` — all in the single language `lang`; there is
no further fallback. -/
def get_concept_display (st : Store) (cid lang : String) : Option String :=
  match get_preferred_term st cid lang with
  | some t => some t
  | none =>
    match activeSynonyms st cid lang with
    | d :: _ => some d.term
    | [] =>
      ((st.descs.filter (fun d =>
          d.concept_id == cid && d.active && d.language_code == lang &&
            d.type_id == fsnTypeId)).head?).map (fun d => d.term)

/-! ## Relevance scoring (`calculate_additional_score`) -/

/-- Lowercasing as performed by Python's `str.lower()` (modelled with
`Char.toLower`; all concrete data in this file is ASCII, where the two
agree). -/
def lowerStr (s : String) : String := String.mk (s.data.map Char.toLower)

/-- Substring containment on character lists (Python's `in` on strings). -/
def hasSubstr : List Char → List Char → Bool
  | pat, [] => pat.isEmpty
  | pat, c :: t => pat.isPrefixOf (c :: t) || hasSubstr pat t

/-- `calculate_additional_score` from `expand.py`, translated branch by
branch (note the dead second disjunct of the third branch, kept from the
source). -/
def calculate_additional_score (term filterText type_id : String) : Int :=
  let term_lower := lowerStr term
  let filter_lower := lowerStr filterText
  let s1 : Int :=
    if term_lower = filter_lower then 50
    else if filter_lower.data.isPrefixOf term_lower.data then 30
    else if hasSubstr (" " ++ filter_lower).data term_lower.data ||
        filter_lower.data.isPrefixOf term_lower.data then 20
    else 0
  let s2 : Int :=
    if type_id = synonymTypeId then s1 + 10
    else if type_id = fsnTypeId then s1 + 5
    else s1
  if term.length > 100 then s2 - 5 else s2

/-- Exact lowercase match between a candidate term and the filter. -/
abbrev isExactMatch (term filterText : String) : Prop :=
  lowerStr term = lowerStr filterText

/-- The lowercased term starts with the lowercased filter. -/
abbrev isStartsWithMatch (term filterText : String) : Prop :=
  (lowerStr filterText).data.isPrefixOf (lowerStr term).data = true

/-- The lowercased filter occurs preceded by a space inside the lowercased
term (the source's word-boundary test). -/
abbrev isWordBoundaryMatch (term filterText : String) : Prop :=
  hasSubstr (" " ++ lowerStr filterText).data (lowerStr term).data = true

/-- Description-type bonus: Synonym 10, FSN 5, other 0. -/
def typeBonus (type_id : String) : Int :=
  if type_id = synonymTypeId then 10
  else if type_id = fsnTypeId then 5
  else 0

/-- Length penalty: 5 for terms longer than 100 characters. -/
def lengthPenalty (term : String) : Int :=
  if term.length > 100 then 5 else 0

/-! ## Ranking and grouping (`process_filtered_results`) -/

/-- One description hit of the filtered search, with the substrate relevance
score it arrived with. -/
structure Hit where
  concept_id : String
  term : String
  type_id : String
  esScore : Int
deriving DecidableEq, Repr

/-- Final score of a hit: substrate relevance plus the additive
adjustments. -/
def finalScore (filterText : String) (h : Hit) : Int :=
  h.esScore + calculate_additional_score h.term filterText h.type_id

/-- One ranked concept, represented by its best-scoring description. -/
structure RankedConcept where
  concept_id : String
  score : Int
  best_term : String
deriving DecidableEq, Repr

/-- First-occurrence deduplication (iteration order of a Python dict built by
insertion). -/
def dedupFirst : List String → List String :=
  go []
where
  go (seen : List String) : List String → List String
    | [] => []
    | a :: l => if a ∈ seen then go seen l else a :: go (a :: seen) l

/-- Python's `max(descriptions, key=score)`: the first element attaining the
maximal score. -/
def bestHit (filterText : String) (h : Hit) (t : List Hit) : Hit :=
  t.foldl (fun b x => if finalScore filterText b < finalScore filterText x then x else b) h

/-- Ranking order used by `sorted(..., key=lambda x: (-score, term.lower()))`:
higher score first, ties by ascending lowercased term. -/
def rankLE (x y : RankedConcept) : Prop :=
  y.score < x.score ∨ (x.score = y.score ∧ lowerStr x.best_term ≤ lowerStr y.best_term)

instance : DecidableRel rankLE := fun x y => by
  unfold rankLE; infer_instance

/-- Grouping step of `process_filtered_results`: one entry per concept (in
first-hit order), carrying the best-scoring description's score and term. -/
def groupByConcept (filterText : String) (hits : List Hit) : List RankedConcept :=
  (dedupFirst (hits.map (fun h => h.concept_id))).filterMap (fun c =>
    match hits.filter (fun h => h.concept_id == c) with
    | [] => none
    | h :: t =>
      let b := bestHit filterText h t
      some ⟨c, finalScore filterText b, b.term⟩)

/-- `process_filtered_results` down to the sorted concept list (a stable sort
by descending score, ties by ascending lowercased term — extensionally the
Python `sorted` call). -/
def process_filtered_results (filterText : String) (hits : List Hit) : List RankedConcept :=
  List.insertionSort rankLE (groupByConcept filterText hits)

/-! ## Pagination (`expand_view` parameter handling and `get_expansion`) -/

/-- Parameter extraction `count = min(param_dict.get('count', 10), 100)`. -/
def parseCount (p : Option Nat) : Nat := min (p.getD 10) 100

/-- Python's `lst[offset : offset + count]` for non-negative bounds. -/
def pageSlice {α : Type} (l : List α) (offset count : Nat) : List α :=
  (l.drop offset).take count

/-- The unfiltered expansion page of `get_expansion`: concept ids sorted
ascending, sliced, one entry per id (the entry-building step of
`get_concepts_details_for_expansion` appends exactly one entry per paginated
concept id); the total is the full set's size. -/
def get_expansion (ids : Finset String) (count offset : Nat) : List String × Nat :=
  (pageSlice (ids.sort (· ≤ ·)) offset count, ids.card)

/-- The filtered expansion page: ranked concepts, sliced. -/
def get_filtered_expansion_page (filterText : String) (hits : List Hit)
    (count offset : Nat) : List RankedConcept × Nat :=
  let ranked := process_filtered_results filterText hits
  (pageSlice ranked offset count, ranked.length)

/-! ## Descendant reachability -/

/-- `IsDescendant g root c`: there is a chain of one or more active IS-A
edges from `c` up to `root` (each edge's source the child, destination the
parent). -/
inductive IsDescendant (g : Graph) (root : String) : String → Prop
  | direct (r : Rel) (hr : r ∈ g) (ha : r.active = true) (ht : r.type_id = isaTypeId)
      (hd : r.destination_id = root) : IsDescendant g root r.source_id
  | step (r : Rel) (hr : r ∈ g) (ha : r.active = true) (ht : r.type_id = isaTypeId)
      (hp : IsDescendant g root r.destination_id) : IsDescendant g root r.source_id

/-! ## Concrete fixtures -/

/-- A 12-node IS-A chain `L → K → … → B → A` (each edge: child is-a
parent). -/
def chainG : Graph :=
  [⟨"B", "A", isaTypeId, true⟩, ⟨"C", "B", isaTypeId, true⟩,
   ⟨"D", "C", isaTypeId, true⟩, ⟨"E", "D", isaTypeId, true⟩,
   ⟨"F", "E", isaTypeId, true⟩, ⟨"G", "F", isaTypeId, true⟩,
   ⟨"H", "G", isaTypeId, true⟩, ⟨"I", "H", isaTypeId, true⟩,
   ⟨"J", "I", isaTypeId, true⟩, ⟨"K", "J", isaTypeId, true⟩,
   ⟨"L", "K", isaTypeId, true⟩]

/-- Concepts index for the fixtures: `X` active, `Y` present but inactive,
the chain nodes all active. -/
def idxC : ConceptIndex :=
  [⟨"X", true⟩, ⟨"Y", false⟩,
   ⟨"A", true⟩, ⟨"B", true⟩, ⟨"C", true⟩, ⟨"D", true⟩, ⟨"E", true⟩,
   ⟨"F", true⟩, ⟨"G", true⟩, ⟨"H", true⟩, ⟨"I", true⟩, ⟨"J", true⟩,
   ⟨"K", true⟩, ⟨"L", true⟩]

/-- Concepts index with an inactive root `R` and active child `C0`. -/
def idxInactiveRoot : ConceptIndex := [⟨"R", false⟩, ⟨"C0", true⟩]

/-- Graph with the single active edge `C0 is-a R`. -/
def gInactiveRoot : Graph := [⟨"C0", "R", isaTypeId, true⟩]

/-- An include clause carrying only an `is-a` filter on `v`. -/
def isaClause (v : String) : ComposeClause :=
  ⟨some snomedSystem, none, some [⟨some "concept", some "is-a", v⟩]⟩

/-- An include clause carrying only explicit concept codes. -/
def codesClause (codes : List String) : ComposeClause :=
  ⟨some snomedSystem, some codes, none⟩

/-- A SNOMED clause with neither a `concept` nor a `filter` key. -/
def emptyClause : ComposeClause := ⟨some snomedSystem, none, none⟩

/-- An include clause naming the LOINC system. -/
def loincClause : ComposeClause := ⟨some loincSystem, some ["L1"], none⟩

/-- A children oracle that answers the first level and fails on the second:
the frontier `{R}` yields `{C1}`, every other query raises. -/
def failingOracle : ChildOracle := fun cur =>
  if cur = {"R"} then .ok {"C1"} else .error ()

/-- The failure-free oracle of the two-level graph `C2 is-a C1 is-a R`. -/
def twoLevelOracle : ChildOracle :=
  graphOracle [⟨"C1", "R", isaTypeId, true⟩, ⟨"C2", "C1", isaTypeId, true⟩]

/-- Store for the term-resolution fixtures: concept `C1` has one active
English synonym "Hello" marked Preferred in the US refset, and nothing in any
other language. -/
def stEn : Store :=
  ⟨[⟨"d1", "C1", "en", synonymTypeId, "Hello", true⟩],
   [⟨"d1", usRefsetId, preferredId, true⟩]⟩

/-! ## Helper instances and lemmas -/

instance {ε α : Type} [DecidableEq ε] [DecidableEq α] : DecidableEq (Except ε α) :=
  fun a b =>
    match a, b with
    | .ok x, .ok y => if h : x = y then .isTrue (by rw [h]) else .isFalse (by simp [h])
    | .error x, .error y => if h : x = y then .isTrue (by rw [h]) else .isFalse (by simp [h])
    | .ok _, .error _ => .isFalse (by simp)
    | .error _, .ok _ => .isFalse (by simp)

/-! ## Claim C7: additive score adjustments -/

/-- C7 counterexample: on the term "ab ab" with filter "ab" (a Synonym), the
starts-with and the space-boundary conditions both hold and the exact-match
condition fails, yet the code awards 30 + 10 = 40, not the 30 + 20 + 10 = 60
that an unconditionally additive word-boundary bonus would give. -/
theorem calculate_additional_score_not_additive :
    calculate_additional_score "ab ab" "ab" synonymTypeId = 40 ∧
    (40 : Int) ≠ 30 + 20 + 10 ∧
    isStartsWithMatch "ab ab" "ab" ∧
    isWordBoundaryMatch "ab ab" "ab" ∧
    ¬ isExactMatch "ab ab" "ab" ∧
    typeBonus synonymTypeId = 10 ∧
    lengthPenalty "ab ab" = 0 := by
  decide

/-- C7 (amended): the additive adjustment is 50 for an exact lowercase match,
else 30 for a starts-with match, else 20 for a space-boundary occurrence
(the three bonuses mutually exclusive), plus the type bonus (Synonym 10,
FSN 5), minus the length penalty (5 beyond 100 characters). -/
theorem calculate_additional_score_characterization
    (term filterText type_id : String) :
    calculate_additional_score term filterText type_id =
      (if isExactMatch term filterText then 50
       else if isStartsWithMatch term filterText then 30
       else if isWordBoundaryMatch term filterText then 20
       else 0)
      + typeBonus type_id - lengthPenalty term := by
  unfold calculate_additional_score typeBonus lengthPenalty isExactMatch
    isStartsWithMatch isWordBoundaryMatch
  split_ifs <;> simp_all

/-! ## Claim C10: page-size capping -/

/-- C10: the requested count is capped at 100 and defaults to 10; both the
plain and the filtered expansion pages never contain more than
`min count 100` entries. -/
theorem expansion_page_size_capped :
    parseCount none = 10 ∧
    (∀ n : Nat, parseCount (some n) = min n 100) ∧
    (∀ (ids : Finset String) (n off : Nat),
      (get_expansion ids (parseCount (some n)) off).1.length ≤ min n 100) ∧
    (∀ (filterText : String) (hits : List Hit) (n off : Nat),
      (get_filtered_expansion_page filterText hits (parseCount (some n)) off).1.length
        ≤ min n 100) := by
  refine ⟨rfl, fun n => rfl, fun ids n off => ?_, fun ft hits n off => ?_⟩
  · simp only [get_expansion, pageSlice, List.length_take, parseCount, Option.getD]
    exact le_trans (min_le_left _ _) le_rfl
  · simp only [get_filtered_expansion_page, pageSlice, List.length_take, parseCount,
      Option.getD]
    exact le_trans (min_le_left _ _) le_rfl

/-! ## Claim C5: display-language fallback -/

/-- C5 counterexample: concept `C1` has an active Preferred synonym in
English and nothing in French; requesting the French display yields no
display at all — the resolver never retries in English. -/
theorem get_concept_display_no_english_retry :
    get_concept_display stEn "C1" "fr" = none ∧
    get_concept_display stEn "C1" "en" = some "Hello" ∧
    ("fr" : String) ≠ "en" := by
  decide

/-- C5 (amended): display resolution consults only the requested language
(after the views collapse `en-gb`/`en-us` to `en`): when a concept has no
active description in that language the resolver returns `none` (callers then
fall back to the bare code), regardless of what exists in English. -/
theorem get_concept_display_single_language (st : Store) (cid lang : String)
    (h : ∀ d ∈ st.descs,
      ¬(d.concept_id = cid ∧ d.active = true ∧ d.language_code = lang)) :
    get_concept_display st cid lang = none ∧
    normalizeLang "en-gb" = "en" ∧ normalizeLang "en-us" = "en" := by
  have hsyn : activeSynonyms st cid lang = [] := by
    refine List.filter_eq_nil_iff.mpr (fun d hd => ?_)
    have := h d hd
    simp only [Bool.and_eq_true, beq_iff_eq] at *
    tauto
  have hfsn : st.descs.filter (fun d =>
      d.concept_id == cid && d.active && d.language_code == lang &&
        d.type_id == fsnTypeId) = [] := by
    refine List.filter_eq_nil_iff.mpr (fun d hd => ?_)
    have := h d hd
    simp only [Bool.and_eq_true, beq_iff_eq] at *
    tauto
  refine ⟨?_, rfl, rfl⟩
  unfold get_concept_display get_preferred_term
  rw [hsyn, hfsn]
  rfl

/-- C5 witness: the general no-retry theorem applied to the concrete English
store with requested language French. -/
theorem get_concept_display_single_language_witness :
    get_concept_display stEn "C1" "fr" = none ∧
    normalizeLang "en-gb" = "en" ∧ normalizeLang "en-us" = "en" :=
  get_concept_display_single_language stEn "C1" "fr" (by decide)

/-! ## Claim C4: behaviour on mid-traversal query failure -/

/-- C4 counterexample: with an oracle whose second-level query fails, the
descendant traversal returns the partial set `{C1}` as a normal result — the
failure is swallowed, not surfaced — while the failure-free run of the same
two-level hierarchy returns `{C1, C2}`. -/
theorem find_descendants_swallows_failure :
    find_descendants_fallible failingOracle "R" = {"C1"} ∧
    (failingOracle {"C1"}).isOk = false ∧
    find_descendants_fallible twoLevelOracle "R" = {"C1", "C2"} := by
  decide

/-- C4 (amended): whenever a children query raises mid-loop (the loop ends in
the error state carrying the set accumulated so far), `find_descendants`
catches the exception and returns exactly that partial set to its caller. -/
theorem find_descendants_fallible_returns_partial (q : ChildOracle) (root : String)
    (A : Finset String) (h : descLoopF q root 10 ∅ {root} = .error A) :
    find_descendants_fallible q root = A := by
  unfold find_descendants_fallible
  rw [h]

/-- C4 witness: the failing two-level oracle ends the loop in the error state
with `{C1}` accumulated, and the traversal returns `{C1}`. -/
theorem find_descendants_fallible_returns_partial_witness :
    find_descendants_fallible failingOracle "R" = {"C1"} :=
  find_descendants_fallible_returns_partial failingOracle "R" {"C1"} (by decide)

/-! ## Claim C3: is-a root verification in the Set Expander -/

/-- C3 counterexample: the root `R` exists but is inactive; `expand_view`'s
`concept_exists` ignores the active flag, so the clause is still expanded and
the result contains both the inactive root and its descendant. -/
theorem expand_isa_ignores_active_flag :
    concept_exists_expand idxInactiveRoot "R" = true ∧
    concept_exists_validate idxInactiveRoot "R" = false ∧
    expandResult idxInactiveRoot gInactiveRoot [isaClause "R"] [] =
      .ok {"R", "C0"} := by
  decide

/-- C3 (amended): for an include clause with a `property=concept, op=is-a`
filter, the Set Expander verifies only that the root concept EXISTS (the
active flag is not checked); when the lookup fails the clause contributes
nothing and the include loop simply continues (non-fatal), and when it
succeeds the clause contributes the root together with its descendants. -/
theorem expand_isa_root_existence_check (idx : ConceptIndex) (g : Graph) (v : String) :
    (concept_exists_expand idx v = false →
      filterContrib idx g ⟨some "concept", some "is-a", v⟩ = ∅ ∧
      ∀ (rest : List ComposeClause) (acc : Finset String),
        inclLoop idx g (isaClause v :: rest) acc = inclLoop idx g rest acc) ∧
    (concept_exists_expand idx v = true →
      filterContrib idx g ⟨some "concept", some "is-a", v⟩ =
        insert v (find_descendants g v)) := by
  constructor
  · intro hmiss
    have hset : filterContrib idx g ⟨some "concept", some "is-a", v⟩ = ∅ := by
      unfold filterContrib
      simp [hmiss]
    refine ⟨hset, fun rest acc => ?_⟩
    have hclause : clauseConceptSet idx g (isaClause v) = ∅ := by
      unfold clauseConceptSet isaClause
      simp [hset]
    have step : inclLoop idx g (isaClause v :: rest) acc =
        inclLoop idx g rest (acc ∪ clauseConceptSet idx g (isaClause v)) := by
      conv_lhs => rw [inclLoop]
      simp [isaClause]
    rw [step, hclause, Finset.union_empty]
  · intro hfound
    unfold filterContrib
    simp [hfound]

/-- C3 witness: the existence check applied to the inactive-root fixture (the
root exists, so the clause contributes `{R} ∪ Descendants(R)`), and to a
missing id (clause skipped). -/
theorem expand_isa_root_existence_check_witness :
    filterContrib idxInactiveRoot gInactiveRoot ⟨some "concept", some "is-a", "R"⟩ =
      insert "R" (find_descendants gInactiveRoot "R") ∧
    filterContrib idxInactiveRoot gInactiveRoot ⟨some "concept", some "is-a", "Z"⟩ = ∅ :=
  ⟨(expand_isa_root_existence_check idxInactiveRoot gInactiveRoot "R").2 (by decide),
   ((expand_isa_root_existence_check idxInactiveRoot gInactiveRoot "Z").1 (by decide)).1⟩

/-! ## Include/exclude loop characterizations -/

/-- When no include clause names LOINC, the include loop succeeds and
computes the running union of the clause contributions. -/
theorem inclLoop_no_loinc (idx : ConceptIndex) (g : Graph) :
    ∀ (cs : List ComposeClause) (acc : Finset String),
      (∀ c ∈ cs, c.system ≠ some loincSystem) →
      inclLoop idx g cs acc = .ok (acc ∪ unionClauses idx g cs) := by
  intro cs
  induction cs with
  | nil => intro acc _; simp [inclLoop, unionClauses]
  | cons c rest ih =>
    intro acc hno
    have hc : c.system ≠ some loincSystem := hno c (List.mem_cons_self c rest)
    have hrest : ∀ x ∈ rest, x.system ≠ some loincSystem :=
      fun x hx => hno x (List.mem_cons_of_mem c hx)
    by_cases hs : c.system = some snomedSystem
    · rw [show inclLoop idx g (c :: rest) acc =
          inclLoop idx g rest (acc ∪ clauseConceptSet idx g c) by
            conv_lhs => rw [inclLoop]
            simp [hs]]
      rw [ih _ hrest]
      rw [show unionClauses idx g (c :: rest) =
          clauseConceptSet idx g c ∪ unionClauses idx g rest by
            conv_lhs => rw [unionClauses]
            simp [hs]]
      rw [Finset.union_assoc]
    · rw [show inclLoop idx g (c :: rest) acc = inclLoop idx g rest acc by
            conv_lhs => rw [inclLoop]
            simp [hs, hc]]
      rw [ih _ hrest]
      rw [show unionClauses idx g (c :: rest) = ∅ ∪ unionClauses idx g rest by
            conv_lhs => rw [unionClauses]
            simp [hs]]
      rw [Finset.empty_union]

/-- If the include loop succeeded, no clause named LOINC. -/
theorem inclLoop_ok_no_loinc (idx : ConceptIndex) (g : Graph) :
    ∀ (cs : List ComposeClause) (acc S : Finset String),
      inclLoop idx g cs acc = .ok S →
      ∀ c ∈ cs, c.system ≠ some loincSystem := by
  intro cs
  induction cs with
  | nil => intro acc S _ c hc; cases hc
  | cons c rest ih =>
    intro acc S h x hx
    by_cases hs : c.system = some snomedSystem
    · rw [show inclLoop idx g (c :: rest) acc =
          inclLoop idx g rest (acc ∪ clauseConceptSet idx g c) by
            conv_lhs => rw [inclLoop]
            simp [hs]] at h
      rcases List.mem_cons.mp hx with rfl | hx'
      · rw [hs]; simp [snomedSystem, loincSystem]
      · exact ih _ _ h x hx'
    · by_cases hl : c.system = some loincSystem
      · rw [show inclLoop idx g (c :: rest) acc = .error () by
              conv_lhs => rw [inclLoop]
              simp [hs, hl, snomedSystem, loincSystem]] at h
        cases h
      · rw [show inclLoop idx g (c :: rest) acc = inclLoop idx g rest acc by
              conv_lhs => rw [inclLoop]
              simp [hs, hl]] at h
        rcases List.mem_cons.mp hx with rfl | hx'
        · exact hl
        · exact ih _ _ h x hx'

/-- The exclude loop always computes the running union of its clause
contributions. -/
theorem exclLoop_eq (idx : ConceptIndex) (g : Graph) :
    ∀ (cs : List ComposeClause) (acc : Finset String),
      exclLoop idx g cs acc = acc ∪ unionClauses idx g cs := by
  intro cs
  induction cs with
  | nil => intro acc; simp [exclLoop, unionClauses]
  | cons c rest ih =>
    intro acc
    by_cases hs : c.system = some snomedSystem
    · rw [show exclLoop idx g (c :: rest) acc =
          exclLoop idx g rest (acc ∪ clauseConceptSet idx g c) by
            conv_lhs => rw [exclLoop]
            simp [hs]]
      rw [ih]
      rw [show unionClauses idx g (c :: rest) =
          clauseConceptSet idx g c ∪ unionClauses idx g rest by
            conv_lhs => rw [unionClauses]
            simp [hs]]
      rw [Finset.union_assoc]
    · rw [show exclLoop idx g (c :: rest) acc = exclLoop idx g rest acc by
            conv_lhs => rw [exclLoop]
            simp [hs]]
      rw [ih]
      rw [show unionClauses idx g (c :: rest) = ∅ ∪ unionClauses idx g rest by
            conv_lhs => rw [unionClauses]
            simp [hs]]
      rw [Finset.empty_union]

/-- Appending one clause extends the union by that clause's contribution. -/
theorem unionClauses_append (idx : ConceptIndex) (g : Graph)
    (e : ComposeClause) :
    ∀ cs : List ComposeClause,
      unionClauses idx g (cs ++ [e]) =
        unionClauses idx g cs ∪
          (if e.system = some snomedSystem then clauseConceptSet idx g e else ∅) := by
  intro cs
  induction cs with
  | nil => simp [unionClauses]
  | cons c rest ih =>
    rw [show unionClauses idx g ((c :: rest) ++ [e]) =
        (if c.system = some snomedSystem then clauseConceptSet idx g c else ∅) ∪
          unionClauses idx g (rest ++ [e]) from rfl]
    rw [ih]
    rw [show unionClauses idx g (c :: rest) =
        (if c.system = some snomedSystem then clauseConceptSet idx g c else ∅) ∪
          unionClauses idx g rest from rfl]
    rw [Finset.union_assoc]

/-- Membership in the clause union. -/
theorem mem_unionClauses (idx : ConceptIndex) (g : Graph) (x : String) :
    ∀ cs : List ComposeClause,
      x ∈ unionClauses idx g cs ↔
        ∃ c ∈ cs, c.system = some snomedSystem ∧ x ∈ clauseConceptSet idx g c := by
  intro cs
  induction cs with
  | nil => simp [unionClauses]
  | cons c rest ih =>
    rw [show unionClauses idx g (c :: rest) =
        (if c.system = some snomedSystem then clauseConceptSet idx g c else ∅) ∪
          unionClauses idx g rest from rfl]
    rw [Finset.mem_union, ih]
    by_cases hs : c.system = some snomedSystem
    · simp [hs]
    · simp [hs]

/-! ## Claim C2: set algebra of Expand -/

/-- C2 counterexample: the set algebra does not cover every compose
specification.  A compose whose includes are the explicit SNOMED code `X`
expands to `{X}`; appending an include clause that names LOINC makes
`expand_view` return a LOINC expansion instead of any SNOMED concept set (no
set at all, a fortiori not a superset of `{X}`), and with a LOINC include
present even the exclude clauses are ignored, so the union-minus-union
equality has no set to hold of. -/
theorem expand_set_algebra_loinc_counterexample :
    expandResult idxC chainG [codesClause ["X"]] [] = .ok {"X"} ∧
    expandResult idxC chainG [codesClause ["X"], loincClause] [] = .error () ∧
    expandResult idxC chainG [loincClause] [codesClause ["X"]] = .error () := by
  decide

/-- C2 (amended): for every compose specification none of whose include
clauses names the LOINC system — equivalently, whenever the include loop
returns a set — that set is the union of the include-clause contributions;
the expansion equals that union minus the union of the exclude-clause
contributions (excludes subtract from the final union, never from individual
include clauses); appending an exclude clause never increases the result's
cardinality; and appending a non-LOINC include clause never decreases it. -/
theorem expand_set_algebra (idx : ConceptIndex) (g : Graph)
    (incl excl : List ComposeClause) (S : Finset String)
    (h : inclLoop idx g incl ∅ = .ok S) :
    S = unionClauses idx g incl ∧
    expandResult idx g incl excl = .ok (resultSet idx g incl excl) ∧
    (∀ e : ComposeClause,
      (resultSet idx g incl (excl ++ [e])).card ≤ (resultSet idx g incl excl).card) ∧
    (∀ i : ComposeClause, i.system ≠ some loincSystem →
      expandResult idx g (incl ++ [i]) excl = .ok (resultSet idx g (incl ++ [i]) excl) ∧
      (resultSet idx g incl excl).card ≤ (resultSet idx g (incl ++ [i]) excl).card) := by
  have hno := inclLoop_ok_no_loinc idx g incl ∅ S h
  have heq := inclLoop_no_loinc idx g incl ∅ hno
  rw [h] at heq
  have hS : S = unionClauses idx g incl := by
    injection heq with h'
    rw [h', Finset.empty_union]
  refine ⟨hS, ?_, ?_, ?_⟩
  · unfold expandResult resultSet
    rw [inclLoop_no_loinc idx g incl ∅ hno, exclLoop_eq, Finset.empty_union,
      Finset.empty_union]
    rfl
  · intro e
    apply Finset.card_le_card
    unfold resultSet
    rw [unionClauses_append]
    exact Finset.sdiff_subset_sdiff (le_refl _) Finset.subset_union_left
  · intro i hi
    have hno' : ∀ c ∈ incl ++ [i], c.system ≠ some loincSystem := by
      intro c hc
      rcases List.mem_append.mp hc with hc' | hc'
      · exact hno c hc'
      · rcases List.mem_singleton.mp hc' with rfl
        exact hi
    constructor
    · unfold expandResult resultSet
      rw [inclLoop_no_loinc idx g (incl ++ [i]) ∅ hno', exclLoop_eq,
        Finset.empty_union, Finset.empty_union]
      rfl
    · apply Finset.card_le_card
      unfold resultSet
      rw [unionClauses_append]
      exact Finset.sdiff_subset_sdiff Finset.subset_union_left (le_refl _)

/-- C2 witness: a concrete include list (one explicit-code clause) on which
the include loop returns `{X}`, which indeed equals the clause union. -/
theorem expand_set_algebra_witness :
    inclLoop idxC chainG [codesClause ["X"]] ∅ = .ok {"X"} ∧
    ({"X"} : Finset String) = unionClauses idxC chainG [codesClause ["X"]] :=
  ⟨by decide,
   (expand_set_algebra idxC chainG [codesClause ["X"]] [] {"X"} (by decide)).1⟩

/-! ## Claim C1: ValidateCode versus Expand membership -/

/-- A clause without filters contributes exactly its explicit codes. -/
theorem clauseConceptSet_concept_only (idx : ConceptIndex) (g : Graph)
    (c : ComposeClause) (hf : c.filters = none) :
    clauseConceptSet idx g c = (c.concept.getD []).toFinset := by
  unfold clauseConceptSet
  rw [hf]
  simp

/-- C1 (amended): for a code that exists and is active, and a compose
specification all of whose include and exclude clauses carry the SNOMED
system and only explicit concept lists (no filters, no catch-all clauses),
the boolean returned by `validate_code_against_valueset` is true exactly when
the code belongs to the set `expand_view` computes for the same compose. -/
theorem validate_matches_expand (idx : ConceptIndex) (g : Graph) (code : String)
    (incl excl : List ComposeClause)
    (hact : concept_exists_validate idx code = true)
    (hincl : ∀ c ∈ incl,
      c.system = some snomedSystem ∧ c.concept.isSome = true ∧ c.filters = none)
    (hexcl : ∀ c ∈ excl,
      c.system = some snomedSystem ∧ c.concept.isSome = true ∧ c.filters = none) :
    expandResult idx g incl excl = .ok (resultSet idx g incl excl) ∧
    (validate_code_against_valueset idx g code incl excl = true ↔
      code ∈ resultSet idx g incl excl) := by
  have hnol : ∀ c ∈ incl, c.system ≠ some loincSystem := by
    intro c hc
    rw [(hincl c hc).1]
    simp [snomedSystem, loincSystem]
  have hexp : expandResult idx g incl excl = .ok (resultSet idx g incl excl) := by
    unfold expandResult resultSet
    rw [inclLoop_no_loinc idx g incl ∅ hnol, exclLoop_eq, Finset.empty_union,
      Finset.empty_union]
    rfl
  have hinc_iff : incl.any (clauseMatchesValidate g code) = true ↔
      code ∈ unionClauses idx g incl := by
    rw [List.any_eq_true, mem_unionClauses]
    constructor
    · rintro ⟨c, hc, hm⟩
      obtain ⟨hs, hcs, hf⟩ := hincl c hc
      obtain ⟨codes, hv⟩ := Option.isSome_iff_exists.mp hcs
      refine ⟨c, hc, hs, ?_⟩
      rw [clauseConceptSet_concept_only idx g c hf, hv]
      unfold clauseMatchesValidate clauseSkippedByValidate at hm
      rw [hs, hf, hv] at hm
      simp [snomedSystem] at hm
      simpa using hm
    · rintro ⟨c, hc, _, hmem⟩
      obtain ⟨hs, hcs, hf⟩ := hincl c hc
      obtain ⟨codes, hv⟩ := Option.isSome_iff_exists.mp hcs
      rw [clauseConceptSet_concept_only idx g c hf, hv] at hmem
      refine ⟨c, hc, ?_⟩
      unfold clauseMatchesValidate clauseSkippedByValidate
      rw [hs, hf, hv]
      simp [snomedSystem]
      simpa using hmem
  have hexc_iff : excl.any (fun c =>
      !clauseSkippedByValidate c &&
        ((c.concept.getD []).any (fun e => e == code) ||
         (c.filters.getD []).any (check_code_against_filter g code))) = true ↔
      code ∈ unionClauses idx g excl := by
    rw [List.any_eq_true, mem_unionClauses]
    constructor
    · rintro ⟨c, hc, hm⟩
      obtain ⟨hs, hcs, hf⟩ := hexcl c hc
      obtain ⟨codes, hv⟩ := Option.isSome_iff_exists.mp hcs
      refine ⟨c, hc, hs, ?_⟩
      rw [clauseConceptSet_concept_only idx g c hf, hv]
      unfold clauseSkippedByValidate at hm
      rw [hs, hf, hv] at hm
      simp [snomedSystem] at hm
      simpa using hm
    · rintro ⟨c, hc, _, hmem⟩
      obtain ⟨hs, hcs, hf⟩ := hexcl c hc
      obtain ⟨codes, hv⟩ := Option.isSome_iff_exists.mp hcs
      rw [clauseConceptSet_concept_only idx g c hf, hv] at hmem
      refine ⟨c, hc, ?_⟩
      unfold clauseSkippedByValidate
      rw [hs, hf, hv]
      simp [snomedSystem]
      simpa using hmem
  refine ⟨hexp, ?_⟩
  unfold validate_code_against_valueset
  rw [hact]
  simp only [if_true]
  rw [Bool.and_eq_true, Bool.not_eq_true']
  unfold resultSet
  rw [Finset.mem_sdiff, hinc_iff]
  constructor
  · rintro ⟨h1, h2⟩
    refine ⟨h1, fun hmem => ?_⟩
    rw [← hexc_iff] at hmem
    rw [hmem] at h2
    cases h2
  · rintro ⟨h1, h2⟩
    refine ⟨h1, ?_⟩
    cases hb : excl.any (fun c =>
        !clauseSkippedByValidate c &&
          ((c.concept.getD []).any (fun e => e == code) ||
           (c.filters.getD []).any (check_code_against_filter g code))) with
    | false => rfl
    | true => exact absurd (hexc_iff.mp hb) h2

/-- C1 witness: the equivalence applied to an active code `X` and a concrete
concept-only compose, where `X` is both validated and a member of the
expansion. -/
theorem validate_matches_expand_witness :
    expandResult idxC chainG [codesClause ["X"]] [] =
      .ok (resultSet idxC chainG [codesClause ["X"]] []) ∧
    (validate_code_against_valueset idxC chainG "X" [codesClause ["X"]] [] = true ↔
      "X" ∈ resultSet idxC chainG [codesClause ["X"]] []) :=
  validate_matches_expand idxC chainG "X" [codesClause ["X"]] []
    (by decide) (by decide) (by decide)

/-- C1 counterexample: three concrete divergences between ValidateCode and
Expand membership.  (1) A SNOMED include clause with neither `concept` nor
`filter` keys: ValidateCode's catch-all accepts the existing active code `X`
while Expand computes the empty set.  (2) An existing but inactive code `Y`
explicitly listed: ValidateCode rejects it (its existence check requires
`active`) while it is a member of the expansion.  (3) A 12-level `is-a`
chain: the code `L` sits 11 levels below root `A`, within the ancestor
traversal's depth bound 15 but beyond the descendant traversal's bound 10, so
ValidateCode accepts `L` while the expansion misses it. -/
theorem validate_expand_mismatch :
    (validate_code_against_valueset idxC chainG "X" [emptyClause] [] = true ∧
     expandResult idxC chainG [emptyClause] [] = .ok ∅) ∧
    (validate_code_against_valueset idxC chainG "Y" [codesClause ["Y"]] [] = false ∧
     expandResult idxC chainG [codesClause ["Y"]] [] = .ok {"Y"}) ∧
    (validate_code_against_valueset idxC chainG "L" [isaClause "A"] [] = true ∧
     expandResult idxC chainG [isaClause "A"] [] =
       .ok {"A", "B", "C", "D", "E", "F", "G", "H", "I", "J", "K"} ∧
     "L" ∉ ({"A", "B", "C", "D", "E", "F", "G", "H", "I", "J", "K"} : Finset String)) := by
  decide

/-! ## BFS soundness and termination lemmas -/

/-- Membership in one children level. -/
theorem mem_childrenOf (g : Graph) (cur : Finset String) (x : String) :
    x ∈ childrenOf g cur ↔
      ∃ r ∈ g, r.active = true ∧ r.type_id = isaTypeId ∧
        r.destination_id ∈ cur ∧ r.source_id = x := by
  unfold childrenOf
  simp only [List.mem_toFinset, List.mem_map, List.mem_filter, Bool.and_eq_true,
    beq_iff_eq, decide_eq_true_eq]
  constructor
  · rintro ⟨r, ⟨hr, ⟨⟨ha, ht⟩, hd⟩⟩, hs⟩
    exact ⟨r, hr, ha, ht, hd, hs⟩
  · rintro ⟨r, hr, ha, ht, hd, hs⟩
    exact ⟨r, ⟨hr, ⟨⟨ha, ht⟩, hd⟩⟩, hs⟩

/-- The traversal root never enters the accumulated set. -/
theorem descLoop_not_mem_root (g : Graph) (root : String) :
    ∀ (fuel : Nat) (acc cur : Finset String),
      root ∉ acc → root ∉ descLoop g root fuel acc cur := by
  intro fuel
  induction fuel with
  | zero => intro acc cur h; exact h
  | succ f ih =>
    intro acc cur h
    rw [descLoop]
    by_cases hn : (childrenOf g cur \ acc) \ {root} = ∅
    · simp only [hn, if_pos]
      exact h
    · simp only [hn, if_neg, if_false]
      apply ih
      rw [Finset.mem_union]
      rintro (hin | hin)
      · exact h hin
      · rw [Finset.mem_sdiff, Finset.mem_singleton] at hin
        exact hin.2 rfl

/-- Every concept the descendant loop accumulates is reachable from the root
by a chain of one or more active IS-A edges. -/
theorem descLoop_sound (g : Graph) (root : String) :
    ∀ (fuel : Nat) (acc cur : Finset String),
      (∀ x ∈ acc, IsDescendant g root x) →
      (∀ x ∈ cur, x = root ∨ IsDescendant g root x) →
      ∀ c ∈ descLoop g root fuel acc cur, IsDescendant g root c := by
  intro fuel
  induction fuel with
  | zero => intro acc cur hacc _ c hc; exact hacc c hc
  | succ f ih =>
    intro acc cur hacc hcur c hc
    rw [descLoop] at hc
    by_cases hn : (childrenOf g cur \ acc) \ {root} = ∅
    · simp only [hn, if_pos] at hc
      exact hacc c hc
    · simp only [hn, if_neg, if_false] at hc
      have hnxt : ∀ x ∈ (childrenOf g cur \ acc) \ {root}, IsDescendant g root x := by
        intro x hx
        rw [Finset.mem_sdiff, Finset.mem_sdiff] at hx
        obtain ⟨⟨hchild, _⟩, _⟩ := hx
        rw [mem_childrenOf] at hchild
        obtain ⟨r, hr, ha, ht, hd, hs⟩ := hchild
        rcases hcur r.destination_id hd with hroot | hdesc
        · rw [← hs]
          exact IsDescendant.direct r hr ha ht hroot
        · rw [← hs]
          exact IsDescendant.step r hr ha ht hdesc
      refine ih _ _ ?_ ?_ c hc
      · intro x hx
        rcases Finset.mem_union.mp hx with hx' | hx'
        · exact hacc x hx'
        · exact hnxt x hx'
      · intro x hx
        exact Or.inr (hnxt x hx)

/-- All ids a children query can ever return. -/
def allSources (g : Graph) : Finset String :=
  (g.map (fun r => r.source_id)).toFinset

/-- A children level only contains ids from the graph's source column. -/
theorem childrenOf_subset_allSources (g : Graph) (cur : Finset String) :
    childrenOf g cur ⊆ allSources g := by
  intro x hx
  rw [mem_childrenOf] at hx
  obtain ⟨r, hr, _, _, _, hs⟩ := hx
  unfold allSources
  rw [List.mem_toFinset, List.mem_map]
  exact ⟨r, hr, hs⟩

/-- Fixpoint stabilization: once the fuel covers the number of not yet
discovered source ids, one more unit of fuel cannot change the result — the
loop terminates on every graph, cyclic data included. -/
theorem descLoop_stable (g : Graph) (root : String) :
    ∀ (f : Nat) (acc cur : Finset String),
      (allSources g \ acc).card ≤ f →
      descLoop g root f acc cur = descLoop g root (f+1) acc cur := by
  intro f
  induction f with
  | zero =>
    intro acc cur hcard
    have hsub : allSources g ⊆ acc := by
      rw [← Finset.sdiff_eq_empty_iff_subset]
      exact Finset.card_eq_zero.mp (Nat.le_zero.mp hcard)
    have hempty : (childrenOf g cur \ acc) \ {root} = ∅ := by
      have h1 : childrenOf g cur \ acc = ∅ := by
        rw [Finset.sdiff_eq_empty_iff_subset]
        exact le_trans (childrenOf_subset_allSources g cur) hsub
      rw [h1, Finset.empty_sdiff]
    rw [descLoop, descLoop]
    simp only [hempty, if_pos]
  | succ f ih =>
    intro acc cur hcard
    rw [descLoop]
    conv_rhs => rw [descLoop]
    by_cases hn : (childrenOf g cur \ acc) \ {root} = ∅
    · simp only [hn, if_pos]
    · simp only [hn, if_neg, if_false]
      apply ih
      obtain ⟨x, hx⟩ := Finset.nonempty_iff_ne_empty.mpr hn
      have hxall : x ∈ allSources g \ acc := by
        rw [Finset.mem_sdiff, Finset.mem_singleton] at hx
        obtain ⟨hx1, _⟩ := hx
        rw [Finset.mem_sdiff] at hx1 ⊢
        exact ⟨childrenOf_subset_allSources g cur hx1.1, hx1.2⟩
      have hstrict : allSources g \ (acc ∪ ((childrenOf g cur \ acc) \ {root})) ⊂
          allSources g \ acc := by
        refine Finset.ssubset_iff_of_subset
          (Finset.sdiff_subset_sdiff (le_refl _) Finset.subset_union_left) |>.mpr ?_
        refine ⟨x, hxall, ?_⟩
        rw [Finset.mem_sdiff]
        rintro ⟨_, hmem⟩
        exact hmem (Finset.mem_union_right _ hx)
      have := Finset.card_lt_card hstrict
      omega

/-! ## Claim C6: descendant closure correctness -/

/-- C6: the root never appears in its own descendant set; every returned
concept is connected to the root by a chain of one or more active IS-A edges
(source the child, destination the parent); and the Set Expander's is-a
filter handling puts the root itself back into the contributed set. -/
theorem descendants_reachable_and_rootless (g : Graph) (root : String)
    (idx : ConceptIndex) :
    root ∉ find_descendants g root ∧
    (∀ c ∈ find_descendants g root, IsDescendant g root c) ∧
    (concept_exists_expand idx root = true →
      root ∈ filterContrib idx g ⟨some "concept", some "is-a", root⟩) := by
  refine ⟨?_, ?_, ?_⟩
  · exact descLoop_not_mem_root g root 10 ∅ {root} (Finset.not_mem_empty root)
  · exact descLoop_sound g root 10 ∅ {root}
      (fun x hx => absurd hx (Finset.not_mem_empty x))
      (fun x hx => Or.inl (Finset.mem_singleton.mp hx))
  · intro hfound
    unfold filterContrib
    simp [hfound]

/-- C6 witness: in the concrete chain, `B` is returned and reachable, and the
existing root `A` is put back by the filter handling. -/
theorem descendants_reachable_and_rootless_witness :
    IsDescendant chainG "A" "B" ∧
    "A" ∈ filterContrib idxC chainG ⟨some "concept", some "is-a", "A"⟩ :=
  ⟨(descendants_reachable_and_rootless chainG "A" idxC).2.1 "B" (by decide),
   (descendants_reachable_and_rootless chainG "A" idxC).2.2 (by decide)⟩

/-! ## Claim C9: traversal termination and depth bounds -/

/-- C9 counterexample to the stated bound: in the 12-level chain, `L` lies 11
levels below `A`; the descendant traversal (hard-coded bound 10) misses it,
while the same loop run with bound 15 — the bound the claim states — returns
it; the ancestor traversal (bound 15) does span the 11 levels. -/
theorem descendant_bound_is_ten :
    "L" ∉ find_descendants chainG "A" ∧
    "L" ∈ descLoop chainG "A" 15 ∅ {"A"} ∧
    "K" ∈ find_descendants chainG "A" ∧
    "A" ∈ get_concept_ancestors chainG "L" := by
  decide

/-- C9 (amended): the breadth-first traversal always terminates: it stops
when a level yields no new ids or when the depth bound is exhausted — the
bound is hard-coded, 10 in `find_descendants` and 15 in
`get_concept_ancestors` — already-discovered ids including the root are
excluded from each frontier, and once the fuel covers the number of
undiscovered child ids the loop is at a fixpoint even on cyclic data. -/
theorem traversal_terminates :
    (∀ (g : Graph) (root : String) (acc cur : Finset String) (f : Nat),
      (childrenOf g cur \ acc) \ {root} = ∅ →
      descLoop g root (f+1) acc cur = acc) ∧
    (∀ (g : Graph) (root : String) (acc cur : Finset String),
      descLoop g root 0 acc cur = acc) ∧
    (∀ (g : Graph) (root : String), find_descendants g root = descLoop g root 10 ∅ {root}) ∧
    (∀ (g : Graph) (start : String),
      get_concept_ancestors g start = ancLoop g start 15 ∅ {start}) ∧
    (∀ (g : Graph) (root : String) (f : Nat) (acc cur : Finset String),
      (allSources g \ acc).card ≤ f →
      descLoop g root f acc cur = descLoop g root (f+1) acc cur) := by
  refine ⟨?_, ?_, ?_, ?_, ?_⟩
  · intro g root acc cur f h
    rw [descLoop]
    simp only [h, if_pos]
  · intro g root acc cur; rfl
  · intro g root; rfl
  · intro g start; rfl
  · intro g root f acc cur h
    exact descLoop_stable g root f acc cur h

/-- C9 witness: in the concrete chain all 11 sources are discovered within 11
levels, so fuel 11 and fuel 12 agree. -/
theorem traversal_terminates_witness :
    descLoop chainG "A" 11 ∅ {"A"} = descLoop chainG "A" 12 ∅ {"A"} :=
  traversal_terminates.2.2.2.2 chainG "A" 11 ∅ {"A"} (by decide)

/-! ## Ranking order instances and lemmas -/

instance : IsTotal RankedConcept rankLE where
  total x y := by
    unfold rankLE
    rcases lt_trichotomy x.score y.score with h | h | h
    · right; left; exact h
    · rcases le_total (lowerStr x.best_term) (lowerStr y.best_term) with hle | hle
      · left; right; exact ⟨h, hle⟩
      · right; right; exact ⟨h.symm, hle⟩
    · left; left; exact h

instance : IsTrans RankedConcept rankLE where
  trans x y z hxy hyz := by
    unfold rankLE at *
    rcases hxy with hxy | ⟨hxy, hxy'⟩
    · rcases hyz with hyz | ⟨hyz, _⟩
      · exact Or.inl (lt_trans hyz hxy)
      · exact Or.inl (hyz ▸ hxy)
    · rcases hyz with hyz | ⟨hyz, hyz'⟩
      · exact Or.inl (hxy ▸ hyz)
      · exact Or.inr ⟨hxy.trans hyz, hxy'.trans hyz'⟩

/-- Membership in the first-occurrence dedup worker. -/
theorem dedupFirst_go_mem (a : String) :
    ∀ (l seen : List String), a ∈ dedupFirst.go seen l ↔ a ∈ l ∧ a ∉ seen := by
  intro l
  induction l with
  | nil => intro seen; simp [dedupFirst.go]
  | cons x t ih =>
    intro seen
    rw [dedupFirst.go]
    by_cases hx : x ∈ seen
    · rw [if_pos hx, ih]
      constructor
      · rintro ⟨hat, hns⟩
        exact ⟨List.mem_cons_of_mem x hat, hns⟩
      · rintro ⟨hat, hns⟩
        rcases List.mem_cons.mp hat with rfl | h
        · exact absurd hx hns
        · exact ⟨h, hns⟩
    · rw [if_neg hx, List.mem_cons, ih]
      constructor
      · rintro (rfl | ⟨hat, hns⟩)
        · exact ⟨List.mem_cons_self _ _, hx⟩
        · refine ⟨List.mem_cons_of_mem x hat, fun hc => hns (List.mem_cons_of_mem x hc)⟩
      · rintro ⟨hat, hns⟩
        by_cases hax : a = x
        · exact Or.inl hax
        · rcases List.mem_cons.mp hat with rfl | h
          · exact absurd rfl hax
          · refine Or.inr ⟨h, fun hc => ?_⟩
            rcases List.mem_cons.mp hc with rfl | hc'
            · exact hax rfl
            · exact hns hc'

/-- First-occurrence dedup keeps exactly the members. -/
theorem dedupFirst_mem (a : String) (l : List String) :
    a ∈ dedupFirst l ↔ a ∈ l := by
  unfold dedupFirst
  rw [dedupFirst_go_mem]
  simp

/-- The dedup worker output has no duplicates. -/
theorem dedupFirst_go_nodup :
    ∀ (l seen : List String), (dedupFirst.go seen l).Nodup := by
  intro l
  induction l with
  | nil => intro seen; simp [dedupFirst.go]
  | cons x t ih =>
    intro seen
    rw [dedupFirst.go]
    by_cases hx : x ∈ seen
    · rw [if_pos hx]; exact ih seen
    · rw [if_neg hx]
      refine List.nodup_cons.mpr ⟨?_, ih (x :: seen)⟩
      rw [dedupFirst_go_mem]
      rintro ⟨_, hns⟩
      exact hns (List.mem_cons_self _ _)

/-- First-occurrence dedup output has no duplicates. -/
theorem dedupFirst_nodup (l : List String) : (dedupFirst l).Nodup :=
  dedupFirst_go_nodup l []

/-- The pick of `bestHit` is one of the candidates. -/
theorem bestHit_mem (ft : String) :
    ∀ (t : List Hit) (h : Hit), bestHit ft h t ∈ h :: t := by
  intro t
  induction t with
  | nil => intro h; exact List.mem_singleton.mpr rfl
  | cons x l ih =>
    intro h
    unfold bestHit
    rw [List.foldl_cons]
    have hres := ih (if finalScore ft h < finalScore ft x then x else h)
    unfold bestHit at hres
    rcases List.mem_cons.mp hres with heq | hmem
    · rw [heq]
      by_cases hlt : finalScore ft h < finalScore ft x
      · rw [if_pos hlt]
        exact List.mem_cons_of_mem h (List.mem_cons_self x l)
      · rw [if_neg hlt]
        exact List.mem_cons_self h (x :: l)
    · exact List.mem_cons_of_mem h (List.mem_cons_of_mem x hmem)

/-- The pick of `bestHit` scores at least every candidate. -/
theorem bestHit_le (ft : String) :
    ∀ (t : List Hit) (h : Hit), ∀ x ∈ h :: t,
      finalScore ft x ≤ finalScore ft (bestHit ft h t) := by
  intro t
  induction t with
  | nil =>
    intro h x hx
    rw [List.mem_singleton.mp hx]
    exact le_refl _
  | cons y l ih =>
    intro h x hx
    unfold bestHit
    rw [List.foldl_cons]
    have hstep : finalScore ft x ≤ finalScore ft (if finalScore ft h < finalScore ft y then y else h) ∨
        x ∈ l := by
      rcases List.mem_cons.mp hx with rfl | hx'
      · left
        by_cases hlt : finalScore ft x < finalScore ft y
        · rw [if_pos hlt]; exact le_of_lt hlt
        · rw [if_neg hlt]
      · rcases List.mem_cons.mp hx' with rfl | hx''
        · left
          by_cases hlt : finalScore ft h < finalScore ft x
          · rw [if_pos hlt]
          · rw [if_neg hlt]; exact le_of_not_lt hlt
        · right; exact hx''
    have hbest := ih (if finalScore ft h < finalScore ft y then y else h)
    unfold bestHit at hbest
    rcases hstep with hle | hmem
    · exact le_trans hle (hbest _ (List.mem_cons_self _ _))
    · exact hbest x (List.mem_cons_of_mem _ hmem)

/-- The grouped entries' concept ids are exactly the deduplicated hit
concept ids, in first-occurrence order. -/
theorem groupByConcept_map (ft : String) (hits : List Hit) :
    (groupByConcept ft hits).map (fun e => e.concept_id) =
      dedupFirst (hits.map (fun h => h.concept_id)) := by
  unfold groupByConcept
  have hkeys : ∀ c ∈ dedupFirst (hits.map (fun h => h.concept_id)),
      hits.filter (fun h => h.concept_id == c) ≠ [] := by
    intro c hc
    rw [dedupFirst_mem, List.mem_map] at hc
    obtain ⟨h, hh, hcc⟩ := hc
    intro hnil
    have : h ∈ hits.filter (fun h => h.concept_id == c) :=
      List.mem_filter.mpr ⟨hh, by rw [hcc]; exact beq_self_eq_true c⟩
    rw [hnil] at this
    cases this
  generalize dedupFirst (hits.map (fun h => h.concept_id)) = keys at hkeys ⊢
  induction keys with
  | nil => rfl
  | cons c ks ih =>
    have hc := hkeys c (List.mem_cons_self c ks)
    cases hfil : hits.filter (fun h => h.concept_id == c) with
    | nil => exact absurd hfil hc
    | cons h t =>
      rw [List.filterMap_cons, hfil]
      simp only []
      rw [List.map_cons]
      refine congrArg (List.cons c) ?_
      exact ih (fun x hx => hkeys x (List.mem_cons_of_mem c hx))

/-- Each grouped entry is represented by its concept's best-scoring hit. -/
theorem groupByConcept_entry_spec (ft : String) (hits : List Hit) :
    ∀ e ∈ groupByConcept ft hits,
      (∃ h ∈ hits, h.concept_id = e.concept_id ∧ h.term = e.best_term ∧
        finalScore ft h = e.score) ∧
      (∀ h ∈ hits, h.concept_id = e.concept_id → finalScore ft h ≤ e.score) := by
  intro e he
  unfold groupByConcept at he
  rw [List.mem_filterMap] at he
  obtain ⟨c, _, hFc⟩ := he
  cases hfil : hits.filter (fun h => h.concept_id == c) with
  | nil => rw [hfil] at hFc; cases hFc
  | cons h t =>
    rw [hfil] at hFc
    simp only [Option.some.injEq] at hFc
    have hbmem : bestHit ft h t ∈ hits.filter (fun x => x.concept_id == c) := by
      rw [hfil]; exact bestHit_mem ft t h
    rw [List.mem_filter] at hbmem
    obtain ⟨hbhits, hbc⟩ := hbmem
    constructor
    · refine ⟨bestHit ft h t, hbhits, ?_, ?_, ?_⟩
      · rw [← hFc]
        exact beq_iff_eq.mp hbc
      · rw [← hFc]
      · rw [← hFc]
    · intro x hxhits hxc
      have hxfil : x ∈ hits.filter (fun y => y.concept_id == c) := by
        refine List.mem_filter.mpr ⟨hxhits, ?_⟩
        rw [hxc, ← hFc]
        exact beq_self_eq_true _
      rw [hfil] at hxfil
      rw [← hFc]
      exact bestHit_le ft t h x hxfil

/-! ## Claim C8: per-concept best description and deterministic ordering -/

/-- C8: the filtered-result processing keeps exactly one entry per concept,
represented by that concept's best-scoring matched description; the final
list is ordered by descending score with ties broken by ascending lowercased
term; being a pure function of its inputs, the ordering is identical across
runs. -/
theorem process_filtered_results_ranking (ft : String) (hits : List Hit) :
    List.Sorted rankLE (process_filtered_results ft hits) ∧
    ((process_filtered_results ft hits).map (fun e => e.concept_id)).Nodup ∧
    (∀ c : String,
      c ∈ (process_filtered_results ft hits).map (fun e => e.concept_id) ↔
      c ∈ hits.map (fun h => h.concept_id)) ∧
    (∀ e ∈ process_filtered_results ft hits,
      (∃ h ∈ hits, h.concept_id = e.concept_id ∧ h.term = e.best_term ∧
        finalScore ft h = e.score) ∧
      (∀ h ∈ hits, h.concept_id = e.concept_id → finalScore ft h ≤ e.score)) := by
  have hperm : List.Perm (process_filtered_results ft hits) (groupByConcept ft hits) :=
    List.perm_insertionSort rankLE (groupByConcept ft hits)
  have hmap : List.Perm ((process_filtered_results ft hits).map (fun e => e.concept_id))
      (dedupFirst (hits.map (fun h => h.concept_id))) := by
    rw [← groupByConcept_map ft hits]
    exact hperm.map _
  refine ⟨?_, ?_, ?_, ?_⟩
  · exact List.sorted_insertionSort rankLE (groupByConcept ft hits)
  · exact hmap.nodup_iff.mpr (dedupFirst_nodup _)
  · intro c
    rw [hmap.mem_iff, dedupFirst_mem]
  · intro e he
    exact groupByConcept_entry_spec ft hits e (hperm.mem_iff.mp he)

/-- Concrete hit list for the ranking witness: two descriptions of concept
`c1` and one of `c2`. -/
def hitsFx : List Hit :=
  [⟨"c1", "Heart attack", synonymTypeId, 5⟩,
   ⟨"c1", "Acute heart attack syndrome", synonymTypeId, 4⟩,
   ⟨"c2", "Cardiac arrest", synonymTypeId, 3⟩]

/-- C8 witness: on the concrete hits, concept `c1` appears in the output and
its weaker description scores no more than the retained best entry. -/
theorem process_filtered_results_ranking_witness :
    "c1" ∈ (process_filtered_results "heart attack" hitsFx).map (fun e => e.concept_id) ∧
    finalScore "heart attack" ⟨"c1", "Acute heart attack syndrome", synonymTypeId, 4⟩ ≤
      (⟨"c1", (65 : Int), "Heart attack"⟩ : RankedConcept).score :=
  ⟨((process_filtered_results_ranking "heart attack" hitsFx).2.2.1 "c1").mpr (by decide),
   ((process_filtered_results_ranking "heart attack" hitsFx).2.2.2
      ⟨"c1", (65 : Int), "Heart attack"⟩ (by decide)).2
     ⟨"c1", "Acute heart attack syndrome", synonymTypeId, 4⟩ (by decide) rfl⟩

end TermServer
